import Mathlib

/-!
# Verification of the langbot timestamp-alignment core

Shallow embedding of the timestamp-alignment code of the langbot repository
(`adjust_timestamps.py`, line-level walk of `generate_dialogue_timestamps.py`)
together with proofs about the claims of its specification.

Modelling conventions:
* Python strings are modelled as `List Char`; Python floats as `ℚ`
  (the code performs only arithmetic, comparisons and `round(x, 2)`;
  `round` is abstracted as an arbitrary function parameter where it occurs,
  since no claim depends on its value).
* Python's `list.sort(key=...)` (Timsort) is a stable sort; any two stable
  sorts with respect to a total transitive comparison agree elementwise,
  so it is modelled by `List.insertionSort`, the canonical stable sort.
* The regex character class `\w` of `re.sub(r'[^\w\s]', '', ...)` and
  `re.findall(r'\b\w+\b', ...)` is modelled over its ASCII fragment
  (alphanumeric or underscore); whitespace by `Char.isWhitespace`.
-/

/-- Python's `abs` on numbers. -/
def absQ (x : ℚ) : ℚ := if x < 0 then -x else x

/-- `re.sub(r'[^\w\s]', '', ·)` keeps word characters: modelled as
ASCII alphanumeric or underscore (`\w`). -/
def isWordChar (c : Char) : Bool := c.isAlphanum || c == '_'

/-- Word normalisation used throughout `adjust_timestamps.py`:
`re.sub(r'[^\w\s]', '', word.lower())` — lowercase, then drop every
character that is neither a word character nor whitespace. -/
def normalizeWord (w : List Char) : List Char :=
  (w.map Char.toLower).filter (fun c => isWordChar c || c.isWhitespace)

/-- Python's substring test `small in big` (contiguous substring;
the empty list is a substring of everything, as in Python). -/
def isSubstrOf (small big : List Char) : Bool :=
  big.tails.any (fun t => small.isPrefixOf t)

/-- A raw ASR word timestamp, one entry of `word_timestamps_<id>.json`:
`{"word": ..., "start": ..., "end": ...}`.  The `end` key is called `end_`
because `end` is a Lean keyword. -/
structure Token where
  word : List Char
  start : ℚ
  end_ : ℚ
deriving DecidableEq, Inhabited, Repr

/-- One phrase of a dialogue document (`dialogue_<id>.json`):
speaker, text, start/end time and Vietnamese word list. -/
structure Phrase where
  speaker : List Char
  text : List Char
  start_time : ℚ
  end_time : ℚ
  viet_words : List (List Char)
deriving DecidableEq, Inhabited, Repr

/-! ## Sequence matcher: `find_word_sequence_in_auto_timestamps` -/

/-- The per-token comparison of `find_word_sequence_in_auto_timestamps`
(and of `find_word_by_timing`): the ASR token is lowercased (only), the
target word has been normalised; they match on equality or containment
either way (`auto_word == clean_word or clean_word in auto_word or
auto_word in clean_word`). -/
def tokenMatch (cleanWord : List Char) (t : Token) : Bool :=
  let autoWord := t.word.map Char.toLower
  autoWord == cleanWord || isSubstrOf cleanWord autoWord || isSubstrOf autoWord cleanWord

/-- The inner `for j` loop of `find_word_sequence_in_auto_timestamps`:
a window matches when every target word matches the ASR token at its
position. -/
def windowMatch (cleanWords : List (List Char)) (window : List Token) : Bool :=
  (cleanWords.zip window).all (fun p => tokenMatch p.1 p.2)

/-- The indices `i` of `range(len(auto_word_timestamps) - len(clean_words) + 1)`
whose window matches (the outer `for i` loop).  Nat subtraction yields the
empty range exactly when the Python range is empty. -/
def matchIndices (cleanWords : List (List Char)) (auto : List Token) : List Nat :=
  (List.range (auto.length + 1 - cleanWords.length)).filter
    (fun i => windowMatch cleanWords ((auto.drop i).take cleanWords.length))

/-- `auto_word_timestamps[i]`, the start token of the window at `i`. -/
def windowStart (auto : List Token) (i : Nat) : Token := auto.getD i default

/-- `auto_word_timestamps[i + len(clean_words) - 1]`, the end token of the
window at `i`. -/
def windowEnd (cleanWords : List (List Char)) (auto : List Token) (i : Nat) : Token :=
  auto.getD (i + cleanWords.length - 1) default

/-- `abs(sequence_midpoint - position)` for the window at `i`. -/
def windowDiff (cleanWords : List (List Char)) (auto : List Token) (pos : ℚ) (i : Nat) : ℚ :=
  absQ (((windowStart auto i).start + (windowEnd cleanWords auto i).end_) / 2 - pos)

/-- The individual-word fallback at the end of
`find_word_sequence_in_auto_timestamps`: forward scan for the first word,
backward scan for the last word. -/
def seqFallback (cleanWords : List (List Char)) (auto : List Token) :
    Option Token × Option Token :=
  (auto.find? (fun t => tokenMatch (cleanWords.headD []) t),
   auto.reverse.find? (fun t => tokenMatch (cleanWords.getLastD []) t))

/-- `find_word_sequence_in_auto_timestamps(words, auto_word_timestamps, position)`.
With no position hint the first matching window is returned directly from the
scan; with a position hint every matching window becomes a candidate scored by
`abs(midpoint - position)`, the candidate list is stably sorted by score
(`candidates.sort(key=lambda x: x[2])`) and its head is returned.  With no
matching window the individual-word fallback runs. -/
def find_word_sequence_in_auto_timestamps (words : List (List Char)) (auto : List Token)
    (position : Option ℚ) : Option Token × Option Token :=
  if words = [] then (none, none) else
  let cleanWords := words.map normalizeWord
  match position with
  | none =>
    match matchIndices cleanWords auto with
    | [] => seqFallback cleanWords auto
    | i :: _ => (some (windowStart auto i), some (windowEnd cleanWords auto i))
  | some pos =>
    let candidates := (matchIndices cleanWords auto).map (fun i =>
      (windowStart auto i, windowEnd cleanWords auto i, windowDiff cleanWords auto pos i))
    match List.insertionSort (fun a b => a.2.2 ≤ b.2.2) candidates with
    | [] => seqFallback cleanWords auto
    | c :: _ => (some c.1, some c.2.1)

/-! ## Word-timing matcher: `find_word_by_timing` -/

/-- The stoplist of `find_word_by_timing` (and `simple_adjust_timestamps`). -/
def common_words : List (List Char) :=
  [['i'], ['y','o','u'], ['t','h','e'], ['a'], ['a','n'], ['a','n','d'],
   ['i','s'], ['a','r','e'], ['t','o'], ['i','n'], ['i','t'],
   ['t','h','a','t'], ['o','f'], ['f','o','r'], ['o','n'], ['w','i','t','h']]

/-- The candidate collection loop of `find_word_by_timing`: every ASR token
that matches the cleaned word textually and whose midpoint lies within
`tolerance` of `expected_time`, paired with its time distance, in stream
order. -/
def matchingTimestamps (cleanWord : List Char) (auto : List Token)
    (expected tol : ℚ) : List (Token × ℚ) :=
  auto.filterMap (fun t =>
    if tokenMatch cleanWord t then
      if absQ ((t.start + t.end_) / 2 - expected) ≤ tol then
        some (t, absQ ((t.start + t.end_) / 2 - expected))
      else none
    else none)

/-- The widened (whole-stream, time-ignoring) scan of `find_word_by_timing`. -/
def exactMatches (cleanWord : List Char) (auto : List Token) : List Token :=
  auto.filter (fun t => tokenMatch cleanWord t)

/-- `find_word_by_timing(word, auto_word_timestamps, expected_time, tolerance)`.
Stoplist words are rejected; a unique in-tolerance candidate is returned;
with several candidates they are stably sorted by time distance
(`matching_timestamps.sort(key=lambda x: x[1])`) and the closest is returned
only when it is strictly more than `0.5` s closer than the runner-up;
with no in-tolerance candidate a whole-stream scan returns a textual match
exactly when it is unique. -/
def find_word_by_timing (word : List Char) (auto : List Token)
    (expected : ℚ) (tol : ℚ := 17/10) : Option Token :=
  let cleanWord := normalizeWord word
  if cleanWord ∈ common_words then none
  else
    match matchingTimestamps cleanWord auto expected tol with
    | [] =>
      -- no match within tolerance: global fallback (the `not in common_words`
      -- re-test of the source is vacuously true here)
      if cleanWord ∈ common_words then none
      else
        match exactMatches cleanWord auto with
        | [t] => some t
        | _ => none
    | [x] => some x.1
    | x :: y :: rest =>
      match List.insertionSort (fun a b => a.2 ≤ b.2) (x :: y :: rest) with
      | a :: b :: _ => if a.2 + 1/2 < b.2 then some a.1 else none
      | _ => none  -- unreachable: sorting preserves length

/-! ## Validator/repairer: `validate_and_fix_timestamps` -/

/-- The repaired start time of a phrase in `validate_and_fix_timestamps`:
when `start_time >= end_time` the start is pulled to the previous phrase's
already-repaired end (`prevEnd`), or to `0.0` for the first phrase. -/
def fixStart (prevEnd : Option ℚ) (p : Phrase) : ℚ :=
  if p.start_time ≥ p.end_time then prevEnd.getD 0 else p.start_time

/-- The intermediate end value of the repair: pushed to `start + 0.5` when
the repaired start still does not precede the end (the source's nested
`if phrase["start_time"] >= phrase["end_time"]`). -/
def fixMid (prevEnd : Option ℚ) (p : Phrase) : ℚ :=
  if fixStart prevEnd p ≥ p.end_time then fixStart prevEnd p + 1/2 else p.end_time

/-- The repaired end time of a phrase: `fixMid`, clamped down to the next
phrase's (still original) start time on overlap. -/
def fixEnd (prevEnd : Option ℚ) (p : Phrase) (rest : List Phrase) : ℚ :=
  match rest with
  | [] => fixMid prevEnd p
  | q :: _ => if fixMid prevEnd p > q.start_time then q.start_time else fixMid prevEnd p

/-- The in-place repair loop of `validate_and_fix_timestamps`, acting on the
already-sorted list.  `prevEnd` is the (already repaired) end time of the
previous phrase, `none` for the first phrase.  Each phrase's two time fields
are rewritten by `fixStart`/`fixEnd`; the repaired end is what the next
iteration reads as `phrases[i-1]["end_time"]`. -/
def fixPass : Option ℚ → List Phrase → List Phrase
  | _, [] => []
  | prevEnd, p :: rest =>
    { p with start_time := fixStart prevEnd p, end_time := fixEnd prevEnd p rest } ::
      fixPass (some (fixEnd prevEnd p rest)) rest

/-- `validate_and_fix_timestamps(phrases)`: stable sort by `start_time`
(`phrases.sort(key=lambda x: x["start_time"])`), then the single repair
pass. -/
def validate_and_fix_timestamps (ps : List Phrase) : List Phrase :=
  fixPass none (List.insertionSort (fun a b => a.start_time ≤ b.start_time) ps)

/-- Phrase used in concrete examples: only the two time fields vary. -/
def mkP (s e : ℚ) : Phrase := ⟨[], [], s, e, []⟩

/-! ## Orchestrator: `adjust_phrase_timestamps` and `adjust_timestamps` -/

/-- `re.findall(r'\b\w+\b', text)`: the maximal runs of word characters.
`acc` holds the current run, reversed. -/
def wordsOfAux : List Char → List Char → List (List Char)
  | [], acc => if acc = [] then [] else [acc.reverse]
  | c :: cs, acc =>
    if isWordChar c then wordsOfAux cs (c :: acc)
    else if acc = [] then wordsOfAux cs []
    else acc.reverse :: wordsOfAux cs []

/-- The words of a phrase text, as extracted by `re.findall(r'\b\w+\b', ...)`. -/
def wordsOf (text : List Char) : List (List Char) := wordsOfAux text []

/-- `adjust_phrase_timestamps(phrase, auto_word_timestamps, all_phrases,
phrase_index)`.  `round2` abstracts Python's float `round(x, 2)`, on whose
value no claim depends.  The three matching stages of the source are run in
order; note that stage 2 overwrites both endpoints found by stage 1 whenever
at least one of them is missing, exactly as the source does.  Stage 3
re-locates the found token in the stream by value equality (`word ==
start_timestamp` compares dicts by value in Python) and shifts it by the
number of context words taken from the neighbouring phrase.  The source ends
by reassigning `adjusted_phrase["text"] = phrase["text"]`. -/
def adjust_phrase_timestamps (phrase : Phrase) (auto : List Token)
    (all_phrases : List Phrase) (phrase_index : Nat) (round2 : ℚ → ℚ) : Phrase :=
  let words := wordsOf phrase.text
  if words = [] then phrase else
  let position_midpoint := (phrase.start_time + phrase.end_time) / 2
  let r1 := find_word_sequence_in_auto_timestamps words auto (some position_midpoint)
  let st0 := r1.1
  let en0 := r1.2
  -- stage 2: boundary words (both endpoints recomputed when either is missing)
  let st1 := if st0 = none ∨ en0 = none then
      (find_word_sequence_in_auto_timestamps (words.take 3) auto (some phrase.start_time)).1
    else st0
  let en1 := if st0 = none ∨ en0 = none then
      (find_word_sequence_in_auto_timestamps (words.drop (words.length - 3)) auto
        (some phrase.end_time)).2
    else en0
  -- stage 3: cross-phrase transitions
  let stage3 := (st1 = none ∨ en1 = none) ∧ all_phrases ≠ []
  let st2 := if stage3 ∧ 0 < phrase_index ∧ st1 = none then
      let prev_words := wordsOf ((all_phrases.getD (phrase_index - 1) default).text)
      if prev_words = [] then st1
      else
        let transition_words :=
          prev_words.drop (prev_words.length - 2) ++ words.take 2
        match (find_word_sequence_in_auto_timestamps transition_words auto none).1 with
        | none => none
        | some st =>
          match auto.findIdx? (fun w => w == st) with
          | none => some st
          | some i =>
            let offset := min 2 prev_words.length
            if i + offset < auto.length then some (auto.getD (i + offset) default)
            else some st
    else st1
  let en2 := if stage3 ∧ phrase_index < all_phrases.length - 1 ∧ en1 = none then
      let next_words := wordsOf ((all_phrases.getD (phrase_index + 1) default).text)
      if next_words = [] then en1
      else
        let transition_words :=
          words.drop (words.length - 2) ++ next_words.take 2
        match (find_word_sequence_in_auto_timestamps transition_words auto none).2 with
        | none => none
        | some en =>
          match auto.findIdx? (fun w => w == en) with
          | none => some en
          | some i =>
            let offset := min 2 words.length
            if offset ≤ i then some (auto.getD (i - offset) default)
            else some en
    else en1
  let adjusted1 : Phrase := match st2 with
    | some t => { phrase with start_time := round2 t.start }
    | none => phrase
  let adjusted2 : Phrase := match en2 with
    | some t => { adjusted1 with end_time := round2 t.end_ }
    | none => adjusted1
  { adjusted2 with text := phrase.text }

/-- The per-phrase loop of `adjust_timestamps`: each phrase is read from the
current list, adjusted with the partially-updated list as context (in the
source, `original_data` is a shallow copy sharing the `dialogue` list, so the
context list is the one being mutated), written back, and its text compared
against `orig` and restored on mismatch.  (Because of the sharing the
source's guard compares the slot with itself and can never fire; comparing
against the pre-loop list instead, as done here, yields the same result
since `adjust_phrase_timestamps` always restores the text.) -/
def adjustDialogueAux (auto : List Token) (round2 : ℚ → ℚ) (orig : List Phrase)
    (cur : List Phrase) (i : Nat) : List Phrase :=
  if h : i < cur.length then
    let phrase := cur.getD i default
    let adj := adjust_phrase_timestamps phrase auto cur i round2
    let adj2 := if adj.text = (orig.getD i default).text then adj
      else { adj with text := (orig.getD i default).text }
    adjustDialogueAux auto round2 orig (cur.set i adj2) (i + 1)
  else cur
termination_by cur.length - i
decreasing_by simpa using Nat.sub_succ_lt_self _ _ h

/-- The in-memory core of `adjust_timestamps`: run the per-phrase loop over
the dialogue, then `validate_and_fix_timestamps`; the result is what is
persisted (file I/O aside). -/
def adjust_timestamps_core (dialogue : List Phrase) (auto : List Token)
    (round2 : ℚ → ℚ) : List Phrase :=
  validate_and_fix_timestamps (adjustDialogueAux auto round2 dialogue dialogue 0)

/-! ## Proportional estimator: `estimate_timestamps` (line-level walk) -/

/-- One line of `dialogue_data["english_dialogue"]`. -/
structure DialogueLine where
  speaker : List Char
  text : List Char
deriving DecidableEq, Inhabited, Repr

/-- `duration_per_char = total_duration / total_text_length` (0 when the
dialogue is empty of text), from `estimate_timestamps`. -/
def duration_per_char (total_duration : ℚ) (lines : List DialogueLine) : ℚ :=
  let total := (lines.map (fun l => l.text.length)).sum
  if 0 < total then total_duration / (total : ℚ) else 0

/-- The per-line walk of `current_time` in `estimate_timestamps`: before
every line except the first (`if i > 0`), 50 ms are added; the line then
occupies `[current_time, current_time + line_duration)` (the word
subdivision rescales the word durations to sum exactly to `line_duration`
and the walk then advances by `line_duration`). -/
def lineWalk (dpc : ℚ) : ℚ → Nat → List DialogueLine → List (ℚ × ℚ)
  | _, _, [] => []
  | t, i, l :: rest =>
    let t1 := if 0 < i then t + 1/20 else t
    let d := (l.text.length : ℚ) * dpc
    (t1, t1 + d) :: lineWalk dpc (t1 + d) (i + 1) rest

/-- The line-level time spans produced by `estimate_timestamps` for a
dialogue: start and end of each line's share of the audio. -/
def estimate_timestamps_line_spans (total_duration : ℚ)
    (lines : List DialogueLine) : List (ℚ × ℚ) :=
  lineWalk (duration_per_char total_duration lines) 0 0 lines

/-- The spec's §8 Sequence Matcher example: target words `["hello","world"]`. -/
def helloWorldWords : List (List Char) := [['h','e','l','l','o'], ['w','o','r','l','d']]

/-- The spec's §8 Sequence Matcher example: ASR tokens
`[{hello,0,1}, {world,1,2}, {hello,10,11}, {world,11,12}]`. -/
def helloWorldTokens : List Token :=
  [⟨['h','e','l','l','o'], 0, 1⟩, ⟨['w','o','r','l','d'], 1, 2⟩,
   ⟨['h','e','l','l','o'], 10, 11⟩, ⟨['w','o','r','l','d'], 11, 12⟩]

/-! ## Generic helpers for stable sorting by a rational key -/

instance keyLeDecidable {α : Type} (key : α → ℚ) :
    DecidableRel (fun x y => key x ≤ key y) :=
  fun a b => inferInstanceAs (Decidable (key a ≤ key b))

instance keyLeTotal {α : Type} (key : α → ℚ) :
    IsTotal α (fun x y => key x ≤ key y) :=
  ⟨fun a b => le_total (key a) (key b)⟩

instance keyLeTrans {α : Type} (key : α → ℚ) :
    IsTrans α (fun x y => key x ≤ key y) :=
  ⟨fun _ _ _ h1 h2 => le_trans h1 h2⟩

/-- The head of a stable sort by a rational key is the first element of the
original list attaining the minimal key: it is a minimiser, and every element
preceding it in the original list has a strictly larger key. -/
lemma insertionSort_cons_head {α : Type} (key : α → ℚ) :
    ∀ (x : α) (l : List α),
      ∃ a s, List.insertionSort (fun u v => key u ≤ key v) (x :: l) = a :: s ∧
        (∃ pre post, x :: l = pre ++ a :: post ∧ ∀ b ∈ pre, key a < key b) ∧
        ∀ b ∈ x :: l, key a ≤ key b
  | x, [] => ⟨x, [], rfl, ⟨[], [], rfl, by simp⟩, by simp⟩
  | x, y :: l => by
    obtain ⟨a, s, hs, ⟨pre, post, hdec, hpre⟩, hmin⟩ := insertionSort_cons_head key y l
    have hrw : List.insertionSort (fun u v => key u ≤ key v) (x :: y :: l) =
        List.orderedInsert (fun u v => key u ≤ key v) x (a :: s) := by
      rw [List.insertionSort, hs]
    by_cases hxa : key x ≤ key a
    · refine ⟨x, a :: s, ?_, ⟨[], y :: l, rfl, by simp⟩, ?_⟩
      · rw [hrw]; simp [List.orderedInsert, hxa]
      · intro b hb
        rcases List.mem_cons.1 hb with rfl | hb
        · exact le_refl _
        · exact hxa.trans (hmin b hb)
    · refine ⟨a, List.orderedInsert (fun u v => key u ≤ key v) x s, ?_,
        ⟨x :: pre, post, by rw [hdec, List.cons_append], ?_⟩, ?_⟩
      · rw [hrw]; simp [List.orderedInsert, hxa]
      · intro b hb
        rcases List.mem_cons.1 hb with rfl | hb
        · exact lt_of_not_le hxa
        · exact hpre b hb
      · intro b hb
        rcases List.mem_cons.1 hb with rfl | hb
        · exact le_of_lt (lt_of_not_le hxa)
        · exact hmin b hb

/-- `(l1.zip l2).all p` checked positionally, for lists of equal length. -/
lemma zip_all_iff_getD {α β : Type} (p : α × β → Bool) (d1 : α) (d2 : β) :
    ∀ (l1 : List α) (l2 : List β), l1.length = l2.length →
      ((l1.zip l2).all p = true ↔
        ∀ j, j < l1.length → p (l1.getD j d1, l2.getD j d2) = true)
  | [], [], _ => by simp
  | [], _ :: _, h => by simp at h
  | _ :: _, [], h => by simp at h
  | a :: l1, b :: l2, h => by
    have ih := zip_all_iff_getD p d1 d2 l1 l2 (by simpa using h)
    simp only [List.zip_cons_cons, List.all_cons, Bool.and_eq_true, ih]
    constructor
    · rintro ⟨hp, hrest⟩ j hj
      cases j with
      | zero => simpa using hp
      | succ k => simpa using hrest k (by simpa using hj)
    · intro hall
      exact ⟨by simpa using hall 0 (by simp),
        fun k hk => by simpa using hall (k + 1) (by simpa using hk)⟩

/-- Writing back the value already stored at a position is a no-op. -/
lemma set_getD_self {α : Type} (d : α) :
    ∀ (l : List α) (i : Nat), l.set i (l.getD i d) = l
  | [], _ => rfl
  | _ :: _, 0 => rfl
  | a :: l, i + 1 => congrArg (List.cons a) (set_getD_self d l i)

/-- `getD` commutes with `map`. -/
lemma map_getD {α β : Type} (f : α → β) (d : α) :
    ∀ (l : List α) (i : Nat), (l.map f).getD i (f d) = f (l.getD i d)
  | [], _ => rfl
  | _ :: _, 0 => by simp
  | a :: l, i + 1 => by simp [map_getD f d l i]

/-! ## Lemmas about the validator pass -/

/-- Unfolding of the repair pass on a non-empty list. -/
lemma fixPass_cons (pe : Option ℚ) (p : Phrase) (rest : List Phrase) :
    fixPass pe (p :: rest) =
      { p with start_time := fixStart pe p, end_time := fixEnd pe p rest } ::
        fixPass (some (fixEnd pe p rest)) rest := rfl

lemma fixEnd_nil (pe : Option ℚ) (p : Phrase) : fixEnd pe p [] = fixMid pe p := rfl

/-- The repaired start never moves past the original start when the previous
end does not exceed it. -/
lemma fixStart_le (pe : Option ℚ) (p : Phrase) (h : pe.getD 0 ≤ p.start_time) :
    fixStart pe p ≤ p.start_time := by
  unfold fixStart; split
  · exact h
  · exact le_refl _

/-- Before the overlap clamp, the repaired span is strictly positive. -/
lemma fixStart_lt_fixMid (pe : Option ℚ) (p : Phrase) :
    fixStart pe p < fixMid pe p := by
  unfold fixMid; split
  · linarith
  · exact lt_of_not_le (by assumption)

/-- The repaired end never exceeds the next phrase's original start. -/
lemma fixEnd_cons_le (pe : Option ℚ) (p q : Phrase) (rest' : List Phrase) :
    fixEnd pe p (q :: rest') ≤ q.start_time := by
  simp only [fixEnd]; split
  · exact le_refl _
  · exact le_of_not_lt (by assumption)

/-- The repaired span stays non-negative even through the overlap clamp,
whenever the previous end precedes this start and the list is ordered. -/
lemma fixStart_le_fixEnd_cons (pe : Option ℚ) (p q : Phrase) (rest' : List Phrase)
    (hpe : pe.getD 0 ≤ p.start_time) (hpq : p.start_time ≤ q.start_time) :
    fixStart pe p ≤ fixEnd pe p (q :: rest') := by
  simp only [fixEnd]; split
  · exact le_trans (fixStart_le pe p hpe) hpq
  · exact le_of_lt (fixStart_lt_fixMid pe p)

/-- The repaired start of the first phrase of a non-empty pass. -/
lemma fixPass_cons_head_start (pe : Option ℚ) (q : Phrase) (rest : List Phrase) :
    ∃ h t, fixPass pe (q :: rest) = h :: t ∧ h.start_time = fixStart pe q :=
  ⟨_, _, rfl, rfl⟩

/-- The repair pass touches only the two time fields: any function of the
remaining fields is preserved pointwise. -/
lemma fixPass_map {β : Type} (f : Phrase → β)
    (hf : ∀ p s e, f { p with start_time := s, end_time := e } = f p) :
    ∀ (pe : Option ℚ) (l : List Phrase), (fixPass pe l).map f = l.map f
  | _, [] => rfl
  | pe, p :: rest => by
    rw [fixPass_cons, List.map_cons, List.map_cons, hf,
      fixPass_map f hf (some (fixEnd pe p rest)) rest]

/-- Invariants established by the repair pass on a sorted input with
non-negative start times: every phrase ends no earlier than it starts,
consecutive phrases do not overlap, and the order by start time is
preserved. -/
lemma fixPass_invariants :
    ∀ (pe : Option ℚ) (l : List Phrase),
      l.Chain' (fun a b => a.start_time ≤ b.start_time) →
      (∀ p ∈ l, 0 ≤ p.start_time) →
      (∀ q ∈ l.head?, pe.getD 0 ≤ q.start_time) →
      (∀ p ∈ fixPass pe l, p.start_time ≤ p.end_time) ∧
      (fixPass pe l).Chain' (fun a b => a.end_time ≤ b.start_time) ∧
      (fixPass pe l).Chain' (fun a b => a.start_time ≤ b.start_time)
  | _, [], _, _, _ => ⟨by simp [fixPass], by simp [fixPass], by simp [fixPass]⟩
  | pe, p :: rest, hsort, hnn, hpe => by
    have hpe0 : pe.getD 0 ≤ p.start_time := hpe p rfl
    cases rest with
    | nil =>
      refine ⟨?_, by simp [fixPass], by simp [fixPass]⟩
      intro x hx
      simp only [fixPass, List.mem_singleton] at hx
      subst hx
      show fixStart pe p ≤ fixEnd pe p []
      rw [fixEnd_nil]
      exact le_of_lt (fixStart_lt_fixMid pe p)
    | cons q rest' =>
      have hpq : p.start_time ≤ q.start_time := hsort.rel_head
      have he2_le : fixEnd pe p (q :: rest') ≤ q.start_time :=
        fixEnd_cons_le pe p q rest'
      have hs_le_e2 : fixStart pe p ≤ fixEnd pe p (q :: rest') :=
        fixStart_le_fixEnd_cons pe p q rest' hpe0 hpq
      obtain ⟨ih1, ih2, ih3⟩ := fixPass_invariants (some (fixEnd pe p (q :: rest')))
        (q :: rest') hsort.tail (fun x hx => hnn x (List.mem_cons_of_mem p hx))
        (by intro x hx
            simp only [List.head?_cons, Option.mem_def, Option.some.injEq] at hx
            subst hx; simpa using he2_le)
      obtain ⟨h0, t0, hcons, hhead⟩ :=
        fixPass_cons_head_start (some (fixEnd pe p (q :: rest'))) q rest'
      have hhead_ge : fixEnd pe p (q :: rest') ≤ h0.start_time := by
        rw [hhead]; unfold fixStart; split
        · simp
        · exact he2_le
      have hhead_ge' : fixStart pe p ≤ h0.start_time := le_trans hs_le_e2 hhead_ge
      refine ⟨?_, ?_, ?_⟩
      · intro x hx
        rw [fixPass_cons] at hx
        rcases List.mem_cons.1 hx with rfl | hx
        · exact hs_le_e2
        · exact ih1 x hx
      · rw [fixPass_cons, hcons, List.chain'_cons]
        exact ⟨hhead_ge, by rw [← hcons]; exact ih2⟩
      · rw [fixPass_cons, hcons, List.chain'_cons]
        exact ⟨hhead_ge', by rw [← hcons]; exact ih3⟩

/-- On an already valid list (strictly increasing spans, no overlap) the
repair pass is the identity. -/
lemma fixPass_id :
    ∀ (pe : Option ℚ) (l : List Phrase),
      (∀ p ∈ l, p.start_time < p.end_time) →
      l.Chain' (fun a b => a.end_time ≤ b.start_time) →
      fixPass pe l = l
  | _, [], _, _ => rfl
  | pe, p :: rest, hlt, hch => by
    have hp : p.start_time < p.end_time := hlt p (List.mem_cons_self p rest)
    have hs : fixStart pe p = p.start_time := by
      unfold fixStart; rw [if_neg (not_le.mpr hp)]
    have hmid : fixMid pe p = p.end_time := by
      unfold fixMid; rw [hs, if_neg (not_le.mpr hp)]
    have he : fixEnd pe p rest = p.end_time := by
      cases rest with
      | nil => rw [fixEnd_nil, hmid]
      | cons q rest' =>
        have hpq : p.end_time ≤ q.start_time := hch.rel_head
        simp only [fixEnd]
        rw [hmid, if_neg (not_lt.mpr hpq)]
    have ih := fixPass_id (some (fixEnd pe p rest)) rest
      (fun x hx => hlt x (List.mem_cons_of_mem p hx)) hch.tail
    rw [fixPass_cons, ih, hs, he]

/-! ## Lemmas about the orchestrator -/

/-- `adjust_phrase_timestamps` always returns the input phrase's text
(the source reassigns `adjusted_phrase["text"] = phrase["text"]` last). -/
lemma adjust_phrase_timestamps_text (phrase : Phrase) (auto : List Token)
    (all_phrases : List Phrase) (i : Nat) (round2 : ℚ → ℚ) :
    (adjust_phrase_timestamps phrase auto all_phrases i round2).text = phrase.text := by
  by_cases h : wordsOf phrase.text = [] <;>
    simp [adjust_phrase_timestamps, h]

/-- The per-phrase loop preserves the list of texts. -/
lemma adjustDialogueAux_map_text (auto : List Token) (round2 : ℚ → ℚ)
    (orig : List Phrase) :
    ∀ (n : Nat) (cur : List Phrase) (i : Nat), cur.length - i ≤ n →
      cur.map Phrase.text = orig.map Phrase.text →
      (adjustDialogueAux auto round2 orig cur i).map Phrase.text =
        orig.map Phrase.text := by
  intro n
  induction n with
  | zero =>
    intro cur i hn hmap
    rw [adjustDialogueAux, dif_neg (by omega)]
    exact hmap
  | succ n ih =>
    intro cur i hn hmap
    rw [adjustDialogueAux]
    by_cases h : i < cur.length
    · rw [dif_pos h]
      have htext : (cur.getD i default).text = (orig.getD i default).text := by
        have := map_getD Phrase.text default cur i
        have h2 := map_getD Phrase.text default orig i
        rw [← this, ← h2, hmap]
      have hadj :
          (adjust_phrase_timestamps (cur.getD i default) auto cur i round2).text =
            (cur.getD i default).text :=
        adjust_phrase_timestamps_text _ _ _ _ _
      have hset :
          ((cur.set i
              (if (adjust_phrase_timestamps (cur.getD i default) auto cur i round2).text =
                    (orig.getD i default).text then
                  adjust_phrase_timestamps (cur.getD i default) auto cur i round2
                else
                  { adjust_phrase_timestamps (cur.getD i default) auto cur i round2 with
                      text := (orig.getD i default).text })).map Phrase.text) =
            cur.map Phrase.text := by
        rw [if_pos (by rw [hadj, htext]), List.map_set]
        have : (adjust_phrase_timestamps (cur.getD i default) auto cur i round2).text =
            (cur.map Phrase.text).getD i (Phrase.text default) := by
          rw [hadj, map_getD]
        rw [this, set_getD_self]
      exact ih _ (i + 1) (by simp only [List.length_set]; omega) (by rw [hset, hmap])
    · rw [dif_neg h]
      exact hmap

/-! ## Lemmas about the proportional estimator -/

/-- Unfolding of the per-line walk on a non-empty dialogue. -/
lemma lineWalk_cons (dpc t : ℚ) (i : Nat) (l : DialogueLine)
    (rest : List DialogueLine) :
    lineWalk dpc t i (l :: rest) =
      ((if 0 < i then t + 1/20 else t),
        (if 0 < i then t + 1/20 else t) + (l.text.length : ℚ) * dpc) ::
      lineWalk dpc ((if 0 < i then t + 1/20 else t) + (l.text.length : ℚ) * dpc)
        (i + 1) rest := rfl

/-- From the second line on, every produced span starts exactly 50 ms after
the walk's running time, and consecutive spans are separated by exactly
50 ms. -/
lemma lineWalk_chain (dpc : ℚ) :
    ∀ (l : List DialogueLine) (t : ℚ) (i : Nat), 0 < i →
      (∀ x ∈ (lineWalk dpc t i l).head?, x.1 = t + 1/20) ∧
      (lineWalk dpc t i l).Chain' (fun a b => b.1 = a.2 + 1/20)
  | [], _, _, _ => ⟨by simp [lineWalk], by simp [lineWalk]⟩
  | l :: rest, t, i, hi => by
    simp only [lineWalk_cons, if_pos hi]
    obtain ⟨ihh, ihc⟩ := lineWalk_chain dpc rest
      ((t + 1/20) + (l.text.length : ℚ) * dpc) (i + 1) (Nat.succ_pos i)
    refine ⟨?_, ?_⟩
    · intro x hx
      simp only [List.head?_cons, Option.mem_def, Option.some.injEq] at hx
      rw [← hx]
    · rw [List.chain'_cons']
      exact ⟨fun y hy => by rw [ihh y hy], ihc⟩

/-- Between every pair of consecutive line spans lies exactly the 50 ms
pause, irrespective of the speakers. -/
lemma estimate_spans_chain (td : ℚ) (lines : List DialogueLine) :
    (estimate_timestamps_line_spans td lines).Chain' (fun a b => b.1 = a.2 + 1/20) := by
  unfold estimate_timestamps_line_spans
  cases lines with
  | nil => simp [lineWalk]
  | cons l rest =>
    rw [lineWalk_cons, if_neg (lt_irrefl 0)]
    obtain ⟨ihh, ihc⟩ := lineWalk_chain (duration_per_char td (l :: rest)) rest
      (0 + (l.text.length : ℚ) * duration_per_char td (l :: rest)) 1 Nat.one_pos
    rw [List.chain'_cons']
    exact ⟨fun y hy => by rw [ihh y hy], ihc⟩

/-- The walk never inspects the speaker field. -/
lemma lineWalk_speaker_free (dpc : ℚ) (g : DialogueLine → List Char) :
    ∀ (l : List DialogueLine) (t : ℚ) (i : Nat),
      lineWalk dpc t i (l.map (fun x => ⟨g x, x.text⟩)) = lineWalk dpc t i l
  | [], _, _ => rfl
  | _ :: rest, _, _ =>
    congrArg₂ List.cons rfl (lineWalk_speaker_free dpc g rest _ _)

/-- Neither does the total character count. -/
lemma duration_per_char_speaker_free (td : ℚ) (g : DialogueLine → List Char)
    (lines : List DialogueLine) :
    duration_per_char td (lines.map (fun x => ⟨g x, x.text⟩)) =
      duration_per_char td lines := by
  unfold duration_per_char
  rw [List.map_map]
  rfl

/-- The estimated line spans are independent of the speaker fields. -/
lemma estimate_spans_speaker_free (td : ℚ) (g : DialogueLine → List Char)
    (lines : List DialogueLine) :
    estimate_timestamps_line_spans td (lines.map (fun x => ⟨g x, x.text⟩)) =
      estimate_timestamps_line_spans td lines := by
  unfold estimate_timestamps_line_spans
  rw [duration_per_char_speaker_free, lineWalk_speaker_free]

/-! ## Lemmas about the sequence matcher -/

/-- The empty word is a substring of everything, as in Python. -/
lemma isSubstrOf_nil (big : List Char) : isSubstrOf [] big = true := by
  cases big <;> rfl

/-- With a position hint (and non-empty target), the matcher sorts the
candidate triples stably by time distance and takes the head. -/
lemma find_some_eq (words : List (List Char)) (auto : List Token) (pos : ℚ)
    (hw : words ≠ []) :
    find_word_sequence_in_auto_timestamps words auto (some pos) =
      (match List.insertionSort (fun a b : Token × Token × ℚ => a.2.2 ≤ b.2.2)
          ((matchIndices (words.map normalizeWord) auto).map (fun i =>
            (windowStart auto i, windowEnd (words.map normalizeWord) auto i,
             windowDiff (words.map normalizeWord) auto pos i))) with
        | [] => seqFallback (words.map normalizeWord) auto
        | c :: _ => (some c.1, some c.2.1)) := by
  unfold find_word_sequence_in_auto_timestamps
  rw [if_neg hw]

/-- Without a position hint (and non-empty target), the matcher returns the
first matching window in stream order. -/
lemma find_none_eq (words : List (List Char)) (auto : List Token)
    (hw : words ≠ []) :
    find_word_sequence_in_auto_timestamps words auto none =
      (match matchIndices (words.map normalizeWord) auto with
        | [] => seqFallback (words.map normalizeWord) auto
        | i :: _ => (some (windowStart auto i),
            some (windowEnd (words.map normalizeWord) auto i))) := by
  unfold find_word_sequence_in_auto_timestamps
  rw [if_neg hw]

/-- The match indices are produced in strictly increasing stream order. -/
lemma matchIndices_pairwise (cw : List (List Char)) (auto : List Token) :
    (matchIndices cw auto).Pairwise (fun a b => a < b) :=
  (List.pairwise_lt_range _).filter _

/-! ## Claims about the validator -/

/-- **C1** (amended).  After one run of the Validator on phrases whose start
times are non-negative, every phrase satisfies `start_time ≤ end_time`, the
returned list is sorted by `start_time`, and consecutive phrases do not
overlap (`end_time ≤` next `start_time`).  The claim's strict
`start_time < end_time` does not hold: the overlap clamp can produce a
degenerate phrase with `start_time = end_time` (see the counterexample), and
with negative start times even sortedness can fail, so the invariants hold
with `≤` and for non-negative inputs. -/
theorem C1_validator_invariants (ps : List Phrase)
    (hnn : ∀ p ∈ ps, 0 ≤ p.start_time) :
    (∀ p ∈ validate_and_fix_timestamps ps, p.start_time ≤ p.end_time) ∧
    (validate_and_fix_timestamps ps).Chain' (fun a b => a.start_time ≤ b.start_time) ∧
    (validate_and_fix_timestamps ps).Chain' (fun a b => a.end_time ≤ b.start_time) := by
  unfold validate_and_fix_timestamps
  have hsorted : (List.insertionSort (fun a b : Phrase => a.start_time ≤ b.start_time)
      ps).Sorted (fun a b : Phrase => a.start_time ≤ b.start_time) :=
    List.sorted_insertionSort _ ps
  have hnn' : ∀ p ∈ List.insertionSort (fun a b : Phrase => a.start_time ≤ b.start_time) ps,
      0 ≤ p.start_time := fun p hp => hnn p ((List.mem_insertionSort _).1 hp)
  have hpe : ∀ q ∈ (List.insertionSort
      (fun a b : Phrase => a.start_time ≤ b.start_time) ps).head?,
      (none : Option ℚ).getD 0 ≤ q.start_time := by
    intro q hq
    simpa using hnn' q (List.mem_of_mem_head? hq)
  obtain ⟨h1, h2, h3⟩ := fixPass_invariants none _ hsorted.chain' hnn' hpe
  exact ⟨h1, h3, h2⟩

/-- Witness for **C1** on the spec's own §8 example `[(0,5), (3,8)]`. -/
theorem C1_validator_invariants_witness :
    (∀ p ∈ [mkP 0 5, mkP 3 8], 0 ≤ p.start_time) ∧
    ((∀ p ∈ validate_and_fix_timestamps [mkP 0 5, mkP 3 8],
        p.start_time ≤ p.end_time) ∧
      (validate_and_fix_timestamps [mkP 0 5, mkP 3 8]).Chain'
        (fun a b => a.start_time ≤ b.start_time) ∧
      (validate_and_fix_timestamps [mkP 0 5, mkP 3 8]).Chain'
        (fun a b => a.end_time ≤ b.start_time)) :=
  ⟨by with_unfolding_all decide,
   C1_validator_invariants [mkP 0 5, mkP 3 8] (by with_unfolding_all decide)⟩

/-- **C1** fails as stated.  On `[(0,5), (0,8)]` the overlap clamp yields
`[(0,0), (0,8)]`, violating strict `start_time < end_time`; and on the
all-numeric input `[(-1,-2), (-1/2,3)]` (negative times) the output
`[(0,-1/2), (-1/2,3)]` is not even sorted by start time. -/
theorem C1_validator_invariants_counterexample :
    (¬ ∀ p ∈ validate_and_fix_timestamps [mkP 0 5, mkP 0 8],
        p.start_time < p.end_time) ∧
    ¬ ((validate_and_fix_timestamps [mkP (-1) (-2), mkP (-1/2) 3]).Chain'
        (fun a b => a.start_time ≤ b.start_time)) := by
  constructor
  · with_unfolding_all decide
  · have hv : validate_and_fix_timestamps [mkP (-1) (-2), mkP (-1/2) 3] =
        [mkP 0 (-1/2), mkP (-1/2) 3] := by with_unfolding_all decide
    rw [hv]
    intro hchain
    have := List.rel_of_chain_cons hchain
    norm_num [mkP] at this

/-- **C5** (amended).  The Validator is the identity on input that already
satisfies the invariants — sorted by start time, every span strictly
positive, consecutive phrases non-overlapping — hence re-running it on such
output is a no-op.  Unrestricted idempotence fails (see counterexample):
a degenerate phrase produced by the overlap clamp is repaired differently
on the second pass. -/
theorem C5_validator_noop_on_valid (ps : List Phrase)
    (h1 : ∀ p ∈ ps, p.start_time < p.end_time)
    (h2 : ps.Sorted (fun a b => a.start_time ≤ b.start_time))
    (h3 : ps.Chain' (fun a b => a.end_time ≤ b.start_time)) :
    validate_and_fix_timestamps ps = ps := by
  unfold validate_and_fix_timestamps
  rw [List.Sorted.insertionSort_eq h2]
  exact fixPass_id none ps h1 h3

/-- Witness for **C5** on the already-valid list `[(0,1), (2,3)]`. -/
theorem C5_validator_noop_on_valid_witness :
    (∀ p ∈ [mkP 0 1, mkP 2 3], p.start_time < p.end_time) ∧
    ([mkP 0 1, mkP 2 3] : List Phrase).Sorted (fun a b => a.start_time ≤ b.start_time) ∧
    ([mkP 0 1, mkP 2 3] : List Phrase).Chain' (fun a b => a.end_time ≤ b.start_time) ∧
    validate_and_fix_timestamps [mkP 0 1, mkP 2 3] = [mkP 0 1, mkP 2 3] :=
  ⟨by with_unfolding_all decide,
   by with_unfolding_all decide,
   by norm_num [List.chain'_cons, List.chain'_singleton, mkP],
   C5_validator_noop_on_valid [mkP 0 1, mkP 2 3]
     (by with_unfolding_all decide)
     (by with_unfolding_all decide)
     (by norm_num [List.chain'_cons, List.chain'_singleton, mkP])⟩

/-- **C5** fails as stated.  For `p = [(2,5), (2,8)]` the first pass yields
`[(2,2), (2,8)]` (overlap clamp), and the second pass repairs the degenerate
first phrase to `(0,2)`: `validate(validate(p)) ≠ validate(p)`. -/
theorem C5_validator_not_idempotent :
    validate_and_fix_timestamps (validate_and_fix_timestamps [mkP 2 5, mkP 2 8]) ≠
      validate_and_fix_timestamps [mkP 2 5, mkP 2 8] := by
  with_unfolding_all decide

/-- **C10**.  The Validator returns a permutation of its input phrases in
which only the two time fields may differ: the multiset of all remaining
fields (speaker, text, viet_words) is exactly preserved. -/
theorem C10_validator_frame (ps : List Phrase) :
    ((validate_and_fix_timestamps ps).map
        (fun p => (p.speaker, p.text, p.viet_words))).Perm
      (ps.map (fun p => (p.speaker, p.text, p.viet_words))) := by
  unfold validate_and_fix_timestamps
  rw [fixPass_map (fun p => (p.speaker, p.text, p.viet_words)) (fun _ _ _ => rfl) none _]
  exact (List.perm_insertionSort _ ps).map _

/-! ## Claim about the orchestrator -/

/-- **C2**.  The alignment orchestrator never alters any phrase's `text`:
after the per-phrase adjustment loop the list of texts is unchanged
pointwise, and the persisted output — the loop result run through the
Validator, which only reorders phrases and rewrites times — carries exactly
the same multiset of texts.  This holds for arbitrary input phrases, any ASR
stream, and any rounding function. -/
theorem C2_orchestrator_preserves_text (dialogue : List Phrase)
    (auto : List Token) (round2 : ℚ → ℚ) :
    (adjustDialogueAux auto round2 dialogue dialogue 0).map Phrase.text =
      dialogue.map Phrase.text ∧
    ((adjust_timestamps_core dialogue auto round2).map Phrase.text).Perm
      (dialogue.map Phrase.text) := by
  have h1 := adjustDialogueAux_map_text auto round2 dialogue dialogue.length
    dialogue 0 (by omega) rfl
  refine ⟨h1, ?_⟩
  unfold adjust_timestamps_core validate_and_fix_timestamps
  rw [fixPass_map Phrase.text (fun _ _ _ => rfl) none _]
  have h2 := (List.perm_insertionSort (fun a b : Phrase => a.start_time ≤ b.start_time)
    (adjustDialogueAux auto round2 dialogue dialogue 0)).map Phrase.text
  rw [h1] at h2
  exact h2

/-! ## Claim about the proportional estimator -/

/-- **C8** (amended).  The Proportional Timestamp Estimator inserts the
fixed 50 ms pause before *every* dialogue line except the first, regardless
of whether the speaker changes: every line span starts exactly `1/20` s
after the previous span ends, and the computed spans are entirely
independent of the speaker fields.  (As stated — pause exactly when the
speaker differs, no pause between same-speaker lines — the claim is refuted
by the counterexample.) -/
theorem C8_estimator_pause_every_line (td : ℚ) (lines : List DialogueLine) :
    (estimate_timestamps_line_spans td lines).Chain'
      (fun a b => b.1 = a.2 + 1/20) ∧
    (∀ g : DialogueLine → List Char,
      estimate_timestamps_line_spans td (lines.map (fun x => ⟨g x, x.text⟩)) =
        estimate_timestamps_line_spans td lines) :=
  ⟨estimate_spans_chain td lines, fun g => estimate_spans_speaker_free td g lines⟩

/-- **C8** fails as stated.  Two consecutive lines of the *same* speaker
(`A`, texts `"ab"` and `"cd"`, total duration 4) produce spans
`[(0,2), (2+1/20, 4+1/20)]`: the 50 ms pause is inserted even though the
speaker did not change, contradicting "between consecutive lines of the same
speaker no pause is inserted". -/
theorem C8_estimator_pause_counterexample :
    estimate_timestamps_line_spans 4 [⟨['A'], ['a','b']⟩, ⟨['A'], ['c','d']⟩] =
      [(0, 2), (41/20, 81/20)] ∧
    (⟨['A'], ['a','b']⟩ : DialogueLine).speaker =
      (⟨['A'], ['c','d']⟩ : DialogueLine).speaker ∧
    ¬ ((estimate_timestamps_line_spans 4
          [⟨['A'], ['a','b']⟩, ⟨['A'], ['c','d']⟩]).Chain'
        (fun a b => b.1 = a.2)) := by
  refine ⟨by with_unfolding_all decide, rfl, ?_⟩
  have hv : estimate_timestamps_line_spans 4 [⟨['A'], ['a','b']⟩, ⟨['A'], ['c','d']⟩] =
      [(0, 2), (41/20, 81/20)] := by with_unfolding_all decide
  rw [hv]
  intro hchain
  have := List.rel_of_chain_cons hchain
  norm_num at this

/-! ## Claims about the sequence matcher -/

/-- **C3** (amended).  A window of ASR tokens of length `len(target_words)`
matches if and only if, at every position, the *lowercased* (but not
punctuation-stripped) ASR token equals the normalised target word or one is
a substring of the other.  (As stated — with the ASR token also
punctuation-stripped — the claim is false: the source lowercases the ASR
token but never strips it; see the counterexample.) -/
theorem C3_window_match_characterization (targetWords : List (List Char))
    (window : List Token) (hlen : window.length = targetWords.length) :
    (windowMatch (targetWords.map normalizeWord) window = true ↔
      ∀ j, j < targetWords.length →
        (let cw := (targetWords.map normalizeWord).getD j []
         let aw := (window.getD j default).word.map Char.toLower
         aw = cw ∨ isSubstrOf cw aw = true ∨ isSubstrOf aw cw = true)) := by
  unfold windowMatch
  rw [zip_all_iff_getD _ [] default _ _ (by simpa using hlen.symm)]
  constructor
  · intro h j hj
    have hj' : j < (targetWords.map normalizeWord).length := by simpa using hj
    have := h j hj'
    simpa [tokenMatch, Bool.or_eq_true, beq_iff_eq, or_assoc] using this
  · intro h j hj
    have hj' : j < targetWords.length := by simpa using hj
    have := h j hj'
    simpa [tokenMatch, Bool.or_eq_true, beq_iff_eq, or_assoc] using this

/-- Witness for **C3**: target `"hi"` against the ASR token `"Hi"`. -/
theorem C3_window_match_characterization_witness :
    windowMatch ([['h','i']].map normalizeWord) [⟨['H','i'], 0, 1⟩] = true :=
  (C3_window_match_characterization [['h','i']] [⟨['H','i'], 0, 1⟩] rfl).mpr
    (by with_unfolding_all decide)

/-- **C3** fails as stated.  For target word `"ab"` and ASR token `"a.b"`
the *normalised* forms are both `"ab"`, so the claimed criterion (normalised
ASR token, equality or substring) accepts the position — but the code
compares the merely lowercased token `"a.b"`, and the window does not match. -/
theorem C3_window_match_counterexample :
    ¬ ((windowMatch ([['a','b']].map normalizeWord) [⟨['a','.','b'], 0, 1⟩] = true) ↔
      ∀ j, j < ([['a','b']] : List (List Char)).length →
        (let cw := ([['a','b']].map normalizeWord).getD j []
         let aw := normalizeWord
           ((([⟨['a','.','b'], 0, 1⟩] : List Token).getD j default).word)
         aw = cw ∨ isSubstrOf cw aw = true ∨ isSubstrOf aw cw = true)) := by
  with_unfolding_all decide

/-- **C9**.  A target word whose normalisation is empty (for example a
punctuation-only token) matches every ASR token, because the containment
test `clean_word in auto_word` is true for the empty string: in the Sequence
Matcher a window position holding such a word accepts any ASR token
regardless of its text, and in the Word-Timing Matcher every stream token
within tolerance becomes a candidate for it. -/
theorem C9_empty_normalization_matches_everything (w : List Char)
    (hw : normalizeWord w = []) :
    (∀ t : Token, tokenMatch (normalizeWord w) t = true) ∧
    (∀ (cw1 cw2 : List (List Char)) (w1 w2 : List Token) (t : Token),
      cw1.length = w1.length →
      windowMatch (cw1 ++ normalizeWord w :: cw2) (w1 ++ t :: w2) =
        windowMatch (cw1 ++ cw2) (w1 ++ w2)) ∧
    (∀ (auto : List Token) (expected tol : ℚ),
      matchingTimestamps (normalizeWord w) auto expected tol =
        auto.filterMap (fun t =>
          if absQ ((t.start + t.end_) / 2 - expected) ≤ tol then
            some (t, absQ ((t.start + t.end_) / 2 - expected))
          else none)) := by
  have htok : ∀ t : Token, tokenMatch (normalizeWord w) t = true := by
    intro t
    rw [hw]
    simp [tokenMatch, isSubstrOf_nil]
  refine ⟨htok, ?_, ?_⟩
  · intro cw1 cw2 w1 w2 t hl
    unfold windowMatch
    rw [List.zip_append hl, List.zip_append hl, List.zip_cons_cons,
      List.all_append, List.all_append, List.all_cons]
    simp [htok t]
  · intro auto expected tol
    unfold matchingTimestamps
    congr 1
    funext t
    simp [htok t]

/-- Witness for **C9**: the punctuation-only word `".,"` normalises to the
empty string and matches the arbitrary ASR token `"xyz"`. -/
theorem C9_empty_normalization_witness :
    normalizeWord ['.', ','] = [] ∧
    tokenMatch (normalizeWord ['.', ',']) ⟨['x','y','z'], 0, 1⟩ = true :=
  ⟨by with_unfolding_all decide,
   (C9_empty_normalization_matches_everything ['.', ',']
     (by with_unfolding_all decide)).1 ⟨['x','y','z'], 0, 1⟩⟩

/-- **C4**.  With a position hint and at least one whole-window match, the
Sequence Matcher returns the matching window whose time midpoint is closest
to the hint, ties broken in favour of the earliest window in stream order
(windows matched earlier in the stream strictly beat later ones of equal
distance); without a hint it returns the first matching window in stream
order. -/
theorem C4_sequence_matcher_selection (words : List (List Char)) (auto : List Token)
    (pos : ℚ) (hw : words ≠ [])
    (hne : matchIndices (words.map normalizeWord) auto ≠ []) :
    (∃ k ∈ matchIndices (words.map normalizeWord) auto,
      find_word_sequence_in_auto_timestamps words auto (some pos) =
        (some (windowStart auto k),
          some (windowEnd (words.map normalizeWord) auto k)) ∧
      (∀ j ∈ matchIndices (words.map normalizeWord) auto,
        windowDiff (words.map normalizeWord) auto pos k ≤
          windowDiff (words.map normalizeWord) auto pos j) ∧
      (∀ j ∈ matchIndices (words.map normalizeWord) auto, j < k →
        windowDiff (words.map normalizeWord) auto pos k <
          windowDiff (words.map normalizeWord) auto pos j)) ∧
    (∀ i rest2, matchIndices (words.map normalizeWord) auto = i :: rest2 →
      find_word_sequence_in_auto_timestamps words auto none =
        (some (windowStart auto i),
          some (windowEnd (words.map normalizeWord) auto i))) := by
  constructor
  · obtain ⟨i0, is0, hM⟩ : ∃ i0 is0,
        matchIndices (words.map normalizeWord) auto = i0 :: is0 := by
      cases h : matchIndices (words.map normalizeWord) auto with
      | nil => exact absurd h hne
      | cons a l => exact ⟨a, l, rfl⟩
    obtain ⟨k, s, hsorteq, ⟨pre, post, hdec, hpre⟩, hmin⟩ :=
      insertionSort_cons_head
        (fun i => windowDiff (words.map normalizeWord) auto pos i) i0 is0
    have hmapsort :
        List.insertionSort (fun a b : Token × Token × ℚ => a.2.2 ≤ b.2.2)
          ((i0 :: is0).map (fun i =>
            (windowStart auto i, windowEnd (words.map normalizeWord) auto i,
              windowDiff (words.map normalizeWord) auto pos i))) =
        (List.insertionSort
            (fun u v => windowDiff (words.map normalizeWord) auto pos u ≤
              windowDiff (words.map normalizeWord) auto pos v) (i0 :: is0)).map
          (fun i => (windowStart auto i, windowEnd (words.map normalizeWord) auto i,
            windowDiff (words.map normalizeWord) auto pos i)) :=
      (List.map_insertionSort
        (fun u v => windowDiff (words.map normalizeWord) auto pos u ≤
          windowDiff (words.map normalizeWord) auto pos v)
        (fun a b : Token × Token × ℚ => a.2.2 ≤ b.2.2)
        (fun i => (windowStart auto i, windowEnd (words.map normalizeWord) auto i,
          windowDiff (words.map normalizeWord) auto pos i))
        (i0 :: is0) (fun a _ b _ => Iff.rfl)).symm
    have hfind : find_word_sequence_in_auto_timestamps words auto (some pos) =
        (some (windowStart auto k),
          some (windowEnd (words.map normalizeWord) auto k)) := by
      rw [find_some_eq words auto pos hw, hM, hmapsort, hsorteq]
      rfl
    have hkmem : k ∈ matchIndices (words.map normalizeWord) auto := by
      rw [hM, hdec]
      exact List.mem_append_right _ (List.mem_cons_self _ _)
    have hpw : (i0 :: is0).Pairwise (fun a b => a < b) := by
      rw [← hM]; exact matchIndices_pairwise _ _
    rw [hdec] at hpw
    refine ⟨k, hkmem, hfind, ?_, ?_⟩
    · intro j hj
      rw [hM] at hj
      exact hmin j hj
    · intro j hj hjk
      rw [hM, hdec] at hj
      rcases List.mem_append.1 hj with hjpre | hjtail
      · exact hpre j hjpre
      · rcases List.mem_cons.1 hjtail with rfl | hjpost
        · exact absurd hjk (lt_irrefl j)
        · exfalso
          have hk_lt_j : k < j :=
            List.rel_of_pairwise_cons (List.pairwise_append.1 hpw).2.1 hjpost
          exact absurd hjk (not_lt.mpr (le_of_lt hk_lt_j))
  · intro i rest2 hM2
    rw [find_none_eq words auto hw, hM2]

/-- Witness for **C4** on the spec's §8 example: with
`approx_position = 0.5` the first pair `({hello,0,1}, {world,1,2})` is
returned (not the second), and without a position hint the first matching
window in stream order is returned. -/
theorem C4_sequence_matcher_selection_witness :
    helloWorldWords ≠ [] ∧
    matchIndices (helloWorldWords.map normalizeWord) helloWorldTokens ≠ [] ∧
    find_word_sequence_in_auto_timestamps helloWorldWords helloWorldTokens none =
      (some ⟨['h','e','l','l','o'], 0, 1⟩, some ⟨['w','o','r','l','d'], 1, 2⟩) ∧
    find_word_sequence_in_auto_timestamps helloWorldWords helloWorldTokens
        (some (1/2)) =
      (some ⟨['h','e','l','l','o'], 0, 1⟩, some ⟨['w','o','r','l','d'], 1, 2⟩) := by
  refine ⟨by with_unfolding_all decide, by with_unfolding_all decide, ?_,
    by with_unfolding_all decide⟩
  have h := (C4_sequence_matcher_selection helloWorldWords helloWorldTokens (1/2)
    (by with_unfolding_all decide) (by with_unfolding_all decide)).2 0 [2]
    (by with_unfolding_all decide)
  rw [h]
  with_unfolding_all decide

/-! ## Claims about the word-timing matcher -/

/-- **C6** (amended).  With two or more candidates within the tolerance
window (for a non-stoplist word), the Word-Timing Matcher returns the
closest candidate — the head `a` of the stable sort by time distance, which
minimises the distance over all candidates, the runner-up `b` minimising it
over the rest — exactly when `a` is *strictly more* than 0.5 s closer than
`b`; otherwise it returns none.  (The claim's "at least 0.5 s closer" is
wrong at the boundary: with a margin of exactly 0.5 s the code returns
none; see the counterexample.) -/
theorem C6_timing_matcher_margin (word : List Char) (auto : List Token)
    (expected tol : ℚ)
    (hcw : normalizeWord word ∉ common_words)
    (a b : Token × ℚ) (rest : List (Token × ℚ))
    (hs : List.insertionSort (fun x y : Token × ℚ => x.2 ≤ y.2)
        (matchingTimestamps (normalizeWord word) auto expected tol) =
      a :: b :: rest) :
    find_word_by_timing word auto expected tol =
      (if a.2 + 1/2 < b.2 then some a.1 else none) ∧
    (∀ c ∈ matchingTimestamps (normalizeWord word) auto expected tol,
      a.2 ≤ c.2) ∧
    (∀ c ∈ b :: rest, b.2 ≤ c.2) := by
  have hlen : (matchingTimestamps (normalizeWord word) auto expected tol).length =
      rest.length + 2 := by
    have hl := (List.perm_insertionSort (fun x y : Token × ℚ => x.2 ≤ y.2)
      (matchingTimestamps (normalizeWord word) auto expected tol)).length_eq
    rw [hs] at hl
    simpa using hl.symm
  obtain ⟨x, y, m', hm⟩ : ∃ x y m',
      matchingTimestamps (normalizeWord word) auto expected tol = x :: y :: m' := by
    cases hM : matchingTimestamps (normalizeWord word) auto expected tol with
    | nil => rw [hM] at hlen; simp at hlen
    | cons x t =>
      cases t with
      | nil => rw [hM] at hlen; simp at hlen
      | cons y m' => exact ⟨x, y, m', rfl⟩
  have hsorted := List.sorted_insertionSort (fun x y : Token × ℚ => x.2 ≤ y.2)
    (matchingTimestamps (normalizeWord word) auto expected tol)
  rw [hs] at hsorted
  have hperm := List.perm_insertionSort (fun x y : Token × ℚ => x.2 ≤ y.2)
    (matchingTimestamps (normalizeWord word) auto expected tol)
  rw [hs] at hperm
  refine ⟨?_, ?_, ?_⟩
  · unfold find_word_by_timing
    rw [if_neg hcw]
    simp only [hm]
    rw [← hm, hs]
  · intro c hc
    rcases List.mem_cons.1 (hperm.mem_iff.mpr hc) with rfl | hc'
    · exact le_refl _
    · exact List.rel_of_pairwise_cons hsorted hc'
  · intro c hc
    rcases List.mem_cons.1 hc with rfl | hc'
    · exact le_refl _
    · exact List.rel_of_pairwise_cons (List.pairwise_cons.1 hsorted).2 hc'

/-- Witness for **C6**: two in-tolerance `"zebra"` tokens at distances
`1/5` and `1`; the margin `1/5 + 1/2 < 1` is strict, so the closest is
returned. -/
theorem C6_timing_matcher_margin_witness :
    normalizeWord ['z','e','b','r','a'] ∉ common_words ∧
    List.insertionSort (fun x y : Token × ℚ => x.2 ≤ y.2)
        (matchingTimestamps (normalizeWord ['z','e','b','r','a'])
          [⟨['z','e','b','r','a'], 1/10, 3/10⟩, ⟨['z','e','b','r','a'], 3/5, 7/5⟩]
          0 (17/10)) =
      (⟨['z','e','b','r','a'], 1/10, 3/10⟩, 1/5) ::
        (⟨['z','e','b','r','a'], 3/5, 7/5⟩, 1) :: [] ∧
    find_word_by_timing ['z','e','b','r','a']
        [⟨['z','e','b','r','a'], 1/10, 3/10⟩, ⟨['z','e','b','r','a'], 3/5, 7/5⟩]
        0 (17/10) =
      some ⟨['z','e','b','r','a'], 1/10, 3/10⟩ := by
  refine ⟨by with_unfolding_all decide, by with_unfolding_all decide, ?_⟩
  have h := (C6_timing_matcher_margin ['z','e','b','r','a']
    [⟨['z','e','b','r','a'], 1/10, 3/10⟩, ⟨['z','e','b','r','a'], 3/5, 7/5⟩]
    0 (17/10) (by with_unfolding_all decide)
    (⟨['z','e','b','r','a'], 1/10, 3/10⟩, 1/5)
    (⟨['z','e','b','r','a'], 3/5, 7/5⟩, 1) []
    (by with_unfolding_all decide)).1
  rw [h, if_pos (by norm_num)]

/-- **C6** fails as stated.  Two `"zebra"` candidates at distances `1/5` and
`7/10`: the closest is *at least* (here: exactly) 0.5 s closer than the
second-closest, so the claim demands it be returned, but the code's strict
comparison `d0 + 0.5 < d1` fails and it returns none. -/
theorem C6_timing_matcher_margin_counterexample :
    matchingTimestamps (normalizeWord ['z','e','b','r','a'])
        [⟨['z','e','b','r','a'], 1/10, 3/10⟩, ⟨['z','e','b','r','a'], 2/5, 1⟩]
        0 (17/10) =
      [(⟨['z','e','b','r','a'], 1/10, 3/10⟩, 1/5),
       (⟨['z','e','b','r','a'], 2/5, 1⟩, 7/10)] ∧
    (1/5 : ℚ) + 1/2 ≤ 7/10 ∧
    find_word_by_timing ['z','e','b','r','a']
        [⟨['z','e','b','r','a'], 1/10, 3/10⟩, ⟨['z','e','b','r','a'], 2/5, 1⟩]
        0 (17/10) = none := by
  refine ⟨by with_unfolding_all decide, by norm_num, by with_unfolding_all decide⟩

/-- **C7**.  When no candidate for a (non-stoplist) word lies within the
tolerance window, the Word-Timing Matcher widens the search to the entire
stream ignoring time: if exactly one token textually matches, that token is
returned; otherwise the result is none. -/
theorem C7_timing_matcher_global_fallback (word : List Char) (auto : List Token)
    (expected tol : ℚ)
    (hcw : normalizeWord word ∉ common_words)
    (hm : matchingTimestamps (normalizeWord word) auto expected tol = []) :
    (∀ t, exactMatches (normalizeWord word) auto = [t] →
      find_word_by_timing word auto expected tol = some t) ∧
    ((exactMatches (normalizeWord word) auto).length ≠ 1 →
      find_word_by_timing word auto expected tol = none) := by
  have hbase : find_word_by_timing word auto expected tol =
      (match exactMatches (normalizeWord word) auto with
        | [t] => some t
        | _ => none) := by
    unfold find_word_by_timing
    rw [if_neg hcw]
    simp only [hm]
    rw [if_neg hcw]
  constructor
  · intro t ht
    rw [hbase, ht]
  · intro hne
    rw [hbase]
    cases hE : exactMatches (normalizeWord word) auto with
    | nil => rfl
    | cons t rest =>
      cases rest with
      | nil => exact absurd (by rw [hE]; rfl) hne
      | cons u rest2 => rfl

/-- Witness for **C7**: the spec's §8 example — `"elephant"` occurs once in
the whole stream at `t = 50`, `expected_time = 5`, `tolerance = 1.7`; no
candidate is within tolerance, and the single global occurrence is
returned. -/
theorem C7_timing_matcher_global_fallback_witness :
    normalizeWord ['e','l','e','p','h','a','n','t'] ∉ common_words ∧
    matchingTimestamps (normalizeWord ['e','l','e','p','h','a','n','t'])
        [⟨['d','o','g'], 2, 3⟩, ⟨['e','l','e','p','h','a','n','t'], 249/5, 251/5⟩]
        5 (17/10) = [] ∧
    find_word_by_timing ['e','l','e','p','h','a','n','t']
        [⟨['d','o','g'], 2, 3⟩, ⟨['e','l','e','p','h','a','n','t'], 249/5, 251/5⟩]
        5 (17/10) =
      some ⟨['e','l','e','p','h','a','n','t'], 249/5, 251/5⟩ :=
  ⟨by with_unfolding_all decide,
   by with_unfolding_all decide,
   (C7_timing_matcher_global_fallback ['e','l','e','p','h','a','n','t']
      [⟨['d','o','g'], 2, 3⟩, ⟨['e','l','e','p','h','a','n','t'], 249/5, 251/5⟩]
      5 (17/10) (by with_unfolding_all decide) (by with_unfolding_all decide)).1
    ⟨['e','l','e','p','h','a','n','t'], 249/5, 251/5⟩
    (by with_unfolding_all decide)⟩
